import Mathlib

/-!
Verification of the Gerrit remote-provider URL resolver (`src/git/remotes/gerrit.ts`)
and the remote-provider picker (`src/quickpicks/remoteProviderPicker.ts`) of
izaxone/vscode-gitlens, as a shallow embedding in Lean.

JavaScript strings are embedded as Lean `String` / `List Char`; the JS string
primitives used by the source (`indexOf`, `lastIndexOf`, `substring`, `substr`,
`split`) are reproduced with their exact clamping and negative-index semantics.
-/

namespace Gitlens

/-- JS `String.prototype.indexOf(char, from)` helper: first position (counting
from `i`) in `l` holding `c`. -/
def jsIndexOfAux (c : Char) : List Char → Nat → Option Nat
  | [], _ => none
  | x :: xs, i => if x = c then some i else jsIndexOfAux c xs (i + 1)

/-- JS `String.prototype.indexOf(char, from)`: `from` is clamped to `[0, length]`;
returns the first occurrence position at or after it, or `-1`. -/
def jsIndexOf (l : List Char) (c : Char) (f : Int) : Int :=
  let start : Nat := if f < 0 then 0 else min f.toNat l.length
  match jsIndexOfAux c (l.drop start) start with
  | some n => (n : Int)
  | none => -1

/-- JS `String.prototype.lastIndexOf(char, from)` helper: last position holding
`c` in `l` (indices counted from `i`), with `best` as the fallback. -/
def jsLastIndexOfAux (c : Char) : List Char → Nat → Int → Int
  | [], _, best => best
  | x :: xs, i, best => jsLastIndexOfAux c xs (i + 1) (if x = c then (i : Int) else best)

/-- JS `String.prototype.lastIndexOf(char, from)`: `from < 0` is treated as `0`;
returns the last occurrence position `≤ from`, or `-1`. -/
def jsLastIndexOf (l : List Char) (c : Char) (f : Int) : Int :=
  let stop : Nat := if f < 0 then 0 else f.toNat
  jsLastIndexOfAux c (l.take (stop + 1)) 0 (-1)

/-- JS `String.prototype.substring(a, b)`: both arguments clamped to
`[0, length]` and swapped when out of order. -/
def jsSubstringL (l : List Char) (a b : Int) : List Char :=
  let ca : Nat := min (a.toNat) l.length
  let cb : Nat := min (b.toNat) l.length
  let lo := min ca cb
  let hi := max ca cb
  (l.drop lo).take (hi - lo)

/-- JS `String.prototype.substr(start)` (single-argument form): a negative
start counts back from the end of the string. -/
def jsSubstrL (l : List Char) (a : Int) : List Char :=
  let start : Nat := if a < 0 then ((l.length : Int) + a).toNat else a.toNat
  l.drop start

/-- String wrapper for `jsSubstringL`. -/
def jsSubstring (s : String) (a b : Int) : String :=
  String.mk (jsSubstringL s.data a b)

/-- String wrapper for `jsSubstrL`. -/
def jsSubstr (s : String) (a : Int) : String :=
  String.mk (jsSubstrL s.data a)

/-- JS `String.prototype.startsWith`. -/
def jsStartsWith (s pre : String) : Bool :=
  pre.data.isPrefixOf s.data

/-- JS `String.prototype.split(separator)` for a single-character separator:
always returns at least one (possibly empty) piece. -/
def jsSplit (c : Char) : List Char → List (List Char)
  | [] => [[]]
  | x :: xs =>
    if x = c then [] :: jsSplit c xs
    else
      match jsSplit c xs with
      | h :: t => (x :: h) :: t
      | [] => [[x]]

/-- JS `parseInt(s, 10)` helper: decimal value of a digit list, accumulator style. -/
def natOfDigitsAux : List Char → Nat → Nat
  | [], a => a
  | ch :: cs, a => natOfDigitsAux cs (10 * a + (ch.toNat - 48))

/-- JS `parseInt(s, 10)` on an all-digit string, modelled exactly over `Nat`. -/
def parseInt10 (s : String) : Nat :=
  natOfDigitsAux s.data 0

/-! ### Provider configuration and external collaborators

The `RemoteProvider` base class, `Repository`, `GitRevision` and the vscode
`Uri` type are outside the given sources; they are modelled from the spec. -/

/-- Provider configuration: domain (host), path (project identifier) and
protocol, per spec section 3. Immutable once constructed. -/
structure GerritCfg where
  domain : String
  path : String
  protocol : String
deriving DecidableEq

/-- Modelled from the spec: produced URLs are percent-encoded for safe
embedding (`RemoteProvider.encodeUrl` is outside the given sources). A
character is kept verbatim when it is alphanumeric or an unreserved/reserved
URI character that needs no escaping; everything else (notably a hash sign,
whitespace, a percent sign) is escaped. -/
def isUrlSafeChar (c : Char) : Bool :=
  c.isAlphanum ||
    (['-', '.', '_', '~', '/', ':', '?', '@', '!', '$', '&', '(', ')', '*', '+', ',', ';', '='].contains c)

/-- Uppercase hexadecimal digit for a value below 16. -/
def hexDigitChar (n : Nat) : Char :=
  if n < 10 then Char.ofNat (48 + n) else Char.ofNat (55 + n)

/-- Percent-escape of one (ASCII) character. -/
def percentEncodeChar (c : Char) : List Char :=
  let n := c.toNat % 256
  ['%', hexDigitChar (n / 16), hexDigitChar (n % 16)]

/-- Modelled from the spec: percent-encoding of a produced URL
(`RemoteProvider.encodeUrl` is outside the given sources). -/
def encodeUrl (s : String) : String :=
  String.mk (s.data.flatMap (fun c => if isUrlSafeChar c then [c] else percentEncodeChar c))

/-- Modelled from the spec: the code-browse base URL `<browseBase>` of the
provider, `protocol://domain/path` (`RemoteProvider.baseUrl` is outside the
given sources). -/
def baseUrl (c : GerritCfg) : String :=
  c.protocol ++ "://" ++ c.domain ++ "/" ++ c.path

/-- `GerritRemote.reviewDomain` (gerrit.ts lines 44-47): the domain is split on
dots, the first three labels are destructured, `-review` is appended to the
first, and the three are joined with dots again (a missing label renders as the
empty string, exactly as JS `Array.prototype.join` renders `undefined`). -/
def reviewDomain (c : GerritCfg) : String :=
  let parts := jsSplit '.' c.domain.data
  let subdomain := (parts.get? 0).getD []
  let secondLevelDomain := (parts.get? 1).getD []
  let topLevelDomain := (parts.get? 2).getD []
  String.mk ((subdomain ++ "-review".data) ++ '.' :: secondLevelDomain ++ '.' :: topLevelDomain)

/-- `GerritRemote.baseReviewUrl` (gerrit.ts lines 49-51). -/
def baseReviewUrl (c : GerritCfg) : String :=
  c.protocol ++ "://" ++ reviewDomain c

/-- The autolink URL template of the `Change-Id: ` autolink descriptor
(gerrit.ts lines 18-30). -/
def autolinkUrl (c : GerritCfg) : String :=
  baseReviewUrl c ++ "/q/<num>"

/-- `GerritRemote.getUrlForBranches` (gerrit.ts lines 132-134). -/
def getUrlForBranches (c : GerritCfg) : String :=
  encodeUrl (baseReviewUrl c ++ "/admin/repos/" ++ c.path ++ ",branches")

/-- `GerritRemote.getUrlForBranch` (gerrit.ts lines 136-138). -/
def getUrlForBranch (c : GerritCfg) (branch : String) : String :=
  encodeUrl (baseUrl c ++ "/+/refs/heads/" ++ branch)

/-- `GerritRemote.getUrlForCommit` (gerrit.ts lines 140-142). -/
def getUrlForCommit (c : GerritCfg) (sha : String) : String :=
  encodeUrl (baseReviewUrl c ++ "/q/" ++ sha)

/-- A vscode position: the line number is stored 0-based. -/
structure Pos where
  line : Nat
deriving DecidableEq

/-- A vscode range; only its start is used by the provider. -/
structure JsRange where
  start : Pos
deriving DecidableEq

/-- JS truthiness of an optional string (`undefined` and the empty string are
falsy). -/
def strTruthy : Option String → Bool
  | some s => s != ""
  | none => false

/-- `GerritRemote.getUrlForFile` (gerrit.ts lines 144-150): sha wins over
branch wins over the literal `HEAD`; a range appends a `#line` fragment using
the (0-based) start line. -/
def getUrlForFile (c : GerritCfg) (fileName : String) (branch : Option String)
    (sha : Option String) (range : Option JsRange) : String :=
  let line := match range with
    | some r => "#" ++ Nat.repr r.start.line
    | none => ""
  if strTruthy sha then
    encodeUrl (baseUrl c ++ "/+/" ++ sha.getD "" ++ "/" ++ fileName) ++ line
  else if strTruthy branch then
    encodeUrl (getUrlForBranch c (branch.getD "") ++ "/" ++ fileName) ++ line
  else
    encodeUrl (baseUrl c ++ "/+/HEAD/" ++ fileName) ++ line

/-- The repository service consumed by the resolver. Modelled from the spec:
`remoteBranches` is `getBranches({filter: remote})` mapped through
`getNameWithoutRemote` (remote prefix stripped); `tags` is `getTags()` mapped
to names; `files` and `root` back `toAbsoluteUri`. -/
structure Repo where
  root : String
  files : List String
  remoteBranches : List String
  tags : List String
deriving DecidableEq

/-- Modelled from the spec: `Repository.toAbsoluteUri(path, {validate})` turns
a repository-relative path into a local absolute location, validating existence
unless validation is disabled (`Repository` is outside the given sources). -/
def Repo.toAbsoluteUri (r : Repo) (p : String) (validate : Option Bool) : Option String :=
  let rel := if jsStartsWith p "/" then String.mk (p.data.drop 1) else p
  if validate.getD true then
    if r.files.contains rel then some (r.root ++ "/" ++ rel) else none
  else some (r.root ++ "/" ++ rel)

/-- Modelled from the spec: `GitRevision.isSha` recognises a 40-hex commit id
(`GitRevision` is outside the given sources). -/
def isSha (s : String) : Bool :=
  s.length == 40 && s.data.all (fun ch => ch.isDigit || (97 ≤ ch.toNat && ch.toNat ≤ 102))

/-- `rangeRegex = /^(\d+)$/` (gerrit.ts line 10): the whole fragment must be
digits; the capture is the fragment itself. -/
def rangeRegexExec (s : String) : Option String :=
  if !s.isEmpty && s.data.all Char.isDigit then some s else none

/-- `fileRegex = /^\/([^.....]+)\/\+(.+)$/i` (gerrit.ts line 9): a leading
slash, a non-empty first segment without slashes, the literal `/+`, then a
non-empty remainder (no line terminators, since `.` does not match them). -/
def fileRegexExec (p : String) : Option (String × String) :=
  match p.data with
  | [] => none
  | c0 :: rest =>
    if c0 = '/' then
      let g1 := rest.takeWhile (fun ch => ch != '/')
      let r := rest.drop g1.length
      if g1.isEmpty then none
      else
        match r with
        | '/' :: '+' :: r2 =>
          if !r2.isEmpty && r2.all (fun ch => ch != '\n' && ch != '\r') then
            some (String.mk g1, String.mk r2)
          else none
        | _ => none
    else none

/-- The startLine extraction of `getLocalInfoFromRemoteUri` (gerrit.ts lines
61-70): a (truthy) fragment is matched against `rangeRegex` and parsed with
`parseInt`. -/
def fragmentStartLine (fragment : String) : Option Nat :=
  if !fragment.isEmpty then
    match rangeRegexExec fragment with
    | some start => if start != "" then some (parseInt10 start) else none
    | none => none
  else none

/-- The vscode `Uri` components used by the resolver. -/
structure JsUri where
  authority : String
  path : String
  fragment : String
deriving DecidableEq

/-- A resolved local location: local file URI plus optional starting line. -/
structure ResolvedLocation where
  uri : String
  startLine : Option Nat
deriving DecidableEq

/-- The branch/tag disambiguation `do`/`while` loop of
`getLocalInfoFromRemoteUri` (gerrit.ts lines 96-104 and 113-121): repeatedly
move `index` to the previous slash (`lastIndexOf('/', index - 1)`), test the
prefix before it against the known names, and resolve the suffix on a hit; the
loop body runs once and then repeats while `index > 0`. The `fuel` argument
only bounds the recursion; it is initialised to `index.toNat + 1` at the call
site, and since every iteration strictly decreases a positive `index`, the
fuel can never run out before the loop exits. -/
def scanLoop (known : List String) (toAbs : String → Option String) (branchPath : String)
    (startLine : Option Nat) : Nat → Int → Option ResolvedLocation
  | 0, _ => none
  | fuel + 1, index =>
    let i := jsLastIndexOf branchPath.data '/' (index - 1)
    let branch := jsSubstring branchPath 0 i
    let hit : Option ResolvedLocation :=
      if known.contains branch then
        match toAbs (jsSubstr branchPath i) with
        | some u => some ⟨u, startLine⟩
        | none => none
      else none
    match hit with
    | some r => some r
    | none => if i > 0 then scanLoop known toAbs branchPath startLine fuel i else none

/-- `GerritRemote.getLocalInfoFromRemoteUri` (gerrit.ts lines 53-130): reject a
foreign authority and (unless validation is disabled) a path outside the
project; extract the optional start line from the fragment; match the
`/<project>/+<rest>` pattern; try the commit/HEAD permalink interpretation,
then the `refs/heads/` branch scan, then the `refs/tags/` tag scan. Note that
the branch/tag scans reuse the `index` value left over from the permalink
check. Failures return `none`; the embedding is a total function, so no
exception can be raised. -/
def getLocalInfoFromRemoteUri (c : GerritCfg) (repository : Repo) (uri : JsUri)
    (validate : Option Bool) : Option ResolvedLocation :=
  if uri.authority != c.domain then none
  else if validate.getD true && !(jsStartsWith uri.path ("/" ++ c.path ++ "/")) then none
  else
    let startLine := fragmentStartLine uri.fragment
    match fileRegexExec uri.path with
    | none => none
    | some (_, path) =>
      let index := jsIndexOf path.data '/' 1
      let permalink : Option ResolvedLocation :=
        if index != -1 then
          let sha := jsSubstring path 1 index
          if isSha sha || sha == "HEAD" then
            match repository.toAbsoluteUri (jsSubstr path index) validate with
            | some u => some ⟨u, startLine⟩
            | none => none
          else none
        else none
      match permalink with
      | some r => some r
      | none =>
        if jsStartsWith path "/refs/heads/" then
          scanLoop repository.remoteBranches (fun s => repository.toAbsoluteUri s validate)
            (jsSubstr path (12 : Int)) startLine (index.toNat + 1) index
        else if jsStartsWith path "/refs/tags/" then
          scanLoop repository.tags (fun s => repository.toAbsoluteUri s validate)
            (jsSubstr path (11 : Int)) startLine (index.toNat + 1) index
        else none

/-! ### Remote-provider picker (`src/quickpicks/remoteProviderPicker.ts`)

`GitRemote`, `RemoteResource` and `GitBranch` come from the git data layer,
which is outside the given sources; they are modelled from the spec (section 3
data model and section 4.2). -/

/-- Modelled from the spec: the remote half of a rewritten pull-request base
(`{ path, url }` of the chosen remote). -/
structure PrRemoteInfo where
  path : String
  url : String
deriving DecidableEq

/-- Modelled from the spec: the base of a pull-request-creation resource (an
optional base branch, plus remote coordinates once rewritten). -/
structure PrBase where
  branch : Option String
  remote : Option PrRemoteInfo
deriving DecidableEq

/-- Modelled from the spec: the tagged remote-resource variants used by the
picker (file-at-branch-or-revision with optional range, commit, comparison,
branch, pull-request-creation, commit-pinned revision). -/
inductive RemoteResource where
  | branch (name : String)
  | commit (sha : String)
  | comparison (base : String) (compare : String)
  | createPullRequest (base : PrBase)
  | file (fileName : String) (branchOrTag : Option String) (range : Option JsRange)
  | revision (fileName : String) (branchOrTag : Option String) (range : Option JsRange) (sha : String)
deriving DecidableEq

/-- Modelled from the spec: a resolved git remote with its provider coordinates,
default flag and provider capability data (`GitRemote` / `RemoteProvider` are
outside the given sources). `providerDefaultBranch` is the name delivered by
the provider's optional `getDefaultBranch` API, when any. -/
structure Remote where
  name : String
  path : String
  repoPath : String
  url : String
  providerId : String
  isDefault : Bool
  hasApi : Bool
  providerDefaultBranch : Option String
deriving DecidableEq

/-- Modelled from the spec: `GitBranch.getRemote(name)` — the remote qualifier
of a branch name, i.e. everything before the first slash (empty when there is
no slash, via JS `substring(0, -1)`). -/
def getRemote (name : String) : String :=
  jsSubstring name 0 (jsIndexOf name.data '/' 0)

/-- Modelled from the spec: `GitBranch.getNameWithoutRemote(name)` — the branch
name with the remote qualifier stripped, i.e. everything after the first slash
(the whole name when there is no slash, via JS `substr(-1 + 1)`). -/
def getNameWithoutRemote (name : String) : String :=
  jsSubstr name (jsIndexOf name.data '/' 0 + 1)

/-- Modelled from the spec: one match delivered by
`getBranchesAndOrTags` (a name and an optional sha). -/
structure SvcEntry where
  name : String
  sha : Option String
deriving DecidableEq

/-- Modelled from the spec: the repository-data services consumed by the
picker item (`Container.git` is outside the given sources).
`getDefaultBranchName` takes the repo path and remote name;
`getBranchesAndOrTags` takes the repo path and the branch-or-tag name being
filtered for, returning the matches (or nothing at all). -/
structure GitServices where
  getDefaultBranchName : String → String → Option String
  getBranchesAndOrTags : String → String → Option (List SvcEntry)

/-- The state of a `CopyOrOpenRemoteCommandQuickPickItem`
(remoteProviderPicker.ts lines 29-41): the remote and resource bound at
construction, the clipboard flag, and whether a set-as-default button was
attached. -/
structure CopyOrOpenItem where
  remote : Remote
  resource : RemoteResource
  clipboard : Bool
  hasSetDefaultButton : Bool
deriving DecidableEq

/-- The resource-rewriting pipeline of
`CopyOrOpenRemoteCommandQuickPickItem.execute` (remoteProviderPicker.ts lines
43-87): the local `resource` variable starts as a reference to the stored
resource and is rebound to fresh shallow copies — comparison refs get the
remote prefix stripped, a pull-request base without a branch is resolved via
the default-branch services, and for bitbucket providers a file resource with
a branch/tag is rewritten into a commit-pinned revision when a sha lookup
succeeds (a falsy sha leaves the resource unchanged). -/
def deriveResource (item : CopyOrOpenItem) (git : GitServices) : RemoteResource :=
  let resource := item.resource
  match resource with
  | .comparison base compare =>
    let base2 := if getRemote base == item.remote.name then getNameWithoutRemote base else base
    let compare2 := if getRemote compare == item.remote.name then getNameWithoutRemote compare else compare
    .comparison base2 compare2
  | .createPullRequest base =>
    let branch := match base.branch with
      | some b => some b
      | none =>
        match git.getDefaultBranchName item.remote.repoPath item.remote.name with
        | some b => some b
        | none => if item.remote.hasApi then item.remote.providerDefaultBranch else none
    .createPullRequest ⟨branch, some ⟨item.remote.path, item.remote.url⟩⟩
  | .file fileName branchOrTag range =>
    match branchOrTag with
    | some branchOrTagName =>
      if item.remote.providerId == "bitbucket" || item.remote.providerId == "bitbucket-server" then
        let branchesOrTags := git.getBranchesAndOrTags item.remote.repoPath branchOrTagName
        let sha := match branchesOrTags with
          | some (e :: _) => e.sha
          | _ => none
        match sha with
        | some s => if s != "" then .revision fileName branchOrTag range s else resource
        | none => resource
      else resource
    | none => resource
  | other => other

/-- The copy/open effect dispatched at the end of `execute`
(remoteProviderPicker.ts line 89). -/
inductive RemoteEffect where
  | copyUrl (r : RemoteResource)
  | openUrl (r : RemoteResource)
deriving DecidableEq

/-- `CopyOrOpenRemoteCommandQuickPickItem.execute` (remoteProviderPicker.ts
lines 43-90): derive the (local) resource, then copy its URL or open it, per
the clipboard flag. The item's own state is returned alongside the effect to
make the frame condition explicit: the method never assigns to
`this.resource`, so the stored state is handed back unchanged. -/
def execute (item : CopyOrOpenItem) (git : GitServices) : RemoteEffect × CopyOrOpenItem :=
  let resource := deriveResource item git
  (if item.clipboard then .copyUrl resource else .openUrl resource, item)

/-- The `autoPick` option of `RemoteProviderPicker.show` — the TS type
`'default' | boolean`. -/
inductive AutoPick where
  | default
  | bool (b : Bool)
deriving DecidableEq

/-- JS truthiness of an `autoPick` value: the string `'default'` is truthy. -/
def AutoPick.truthy : AutoPick → Bool
  | .default => true
  | .bool b => b

/-- An entry of the quick-pick item list: either the configure-a-custom-provider
item or a per-remote copy/open item. -/
inductive PickItem where
  | configureCustomProvider
  | copyOrOpen (item : CopyOrOpenItem)
deriving DecidableEq

/-- The outcome of the pre-interaction phase of `RemoteProviderPicker.show`:
either an item is returned immediately (auto-pick, line 182) or the quick-pick
list is presented with the given items and placeholder. -/
inductive ShowOutcome where
  | auto (item : PickItem)
  | present (items : List PickItem) (placeHolder : String)
deriving DecidableEq

/-- The synchronous selection logic of `RemoteProviderPicker.show`
(remoteProviderPicker.ts lines 155-182): with no remotes the item list is the
single configure item and the placeholder is replaced; with `autoPick:
'default'` and several remotes the candidate set collapses to the first remote
flagged default (when any); then `items[0]` is returned without presenting
exactly when `autoPick` is truthy and exactly one remote remains; otherwise the
quick-pick is presented. (Named `showPicker` because `show` is a Lean keyword.) -/
def showPicker (resource : RemoteResource) (remotes : List Remote) (placeHolder : String)
    (autoPick : AutoPick) (clipboard : Bool) (setDefault : Bool) : ShowOutcome :=
  if remotes.length = 0 then
    -- the auto-pick return (line 182) tests `remotes.length === 1`, which is
    -- still 0 on this branch, so the single configure item is always presented
    ShowOutcome.present [PickItem.configureCustomProvider]
      "No auto-detected or configured remote providers found"
  else
    let remotes2 :=
      if autoPick = AutoPick.default ∧ remotes.length > 1 then
        match remotes.find? (fun r => r.isDefault) with
        | some remote => [remote]
        | none => remotes
      else remotes
    let items := remotes2.map (fun r => PickItem.copyOrOpen ⟨r, resource, clipboard, setDefault⟩)
    if autoPick.truthy && remotes2.length == 1 then
      match items with
      | i :: _ => ShowOutcome.auto i
      | [] => ShowOutcome.present items placeHolder
    else ShowOutcome.present items placeHolder

/-- Modelled from the spec: dropping the `scheme://` part of a URL string (the
vscode `Uri.parse` is outside the given sources). -/
def dropScheme : List Char → List Char
  | [] => []
  | x :: xs =>
    if x = ':' then
      match xs with
      | '/' :: '/' :: r => r
      | _ => dropScheme xs
    else dropScheme xs

/-- Modelled from the spec: parsing a produced URL string into the authority,
path and fragment components of a vscode `Uri`. -/
def parseUrl (s : String) : JsUri :=
  let afterScheme := dropScheme s.data
  let authority := afterScheme.takeWhile (fun ch => ch != '/')
  let rest := afterScheme.drop authority.length
  let path := rest.takeWhile (fun ch => ch != '#')
  let fragment := rest.drop (path.length + 1)
  ⟨String.mk authority, String.mk path, String.mk fragment⟩

/-- Decimal digit list of a natural number, most significant digit first; this
is the proof-side specification of `Nat.toDigits 10` (which `Nat.repr` uses). -/
def toDigitsSpec (n : Nat) : List Char :=
  if n < 10 then [Nat.digitChar n]
  else toDigitsSpec (n / 10) ++ [Nat.digitChar (n % 10)]
termination_by n
decreasing_by exact Nat.div_lt_self (by omega) (by omega)

/-! ## Theorems -/

theorem stringMk_data (s : String) : String.mk s.data = s := by
  cases s
  rfl

/-- C10: `CopyOrOpenRemoteCommandQuickPickItem.execute` leaves the resource
stored in the item unchanged — the comparison prefix-stripping, pull-request
base resolution and bitbucket revision rewrite all operate on the local copy
that is handed to copy/open — so the stored state is identical before and
after execution and a repeated activation starts from the originally
constructed resource and produces the same effect. -/
theorem c10_execute_preserves_resource : ∀ (item : CopyOrOpenItem) (git : GitServices),
    (execute item git).2 = item ∧
    ((execute item git).2).resource = item.resource ∧
    execute ((execute item git).2) git = execute item git ∧
    (execute item git).1 =
      (if item.clipboard then RemoteEffect.copyUrl (deriveResource item git)
       else RemoteEffect.openUrl (deriveResource item git)) :=
  fun _ _ => ⟨rfl, rfl, rfl, rfl⟩

/-- C6 (counterexample): with zero remotes, `RemoteProviderPicker.show` does
not skip the `Presenting` state — the quick-pick is presented (with the single
configure item), even with a truthy `autoPick`, because the auto-pick return
requires `remotes.length === 1`. -/
theorem c6_zero_remotes_counterexample :
    showPicker (RemoteResource.branch "main") [] "Choose which remote to open"
        (AutoPick.bool true) false true =
      ShowOutcome.present [PickItem.configureCustomProvider]
        "No auto-detected or configured remote providers found" := by
  decide

/-- C6 (amended): with zero remotes the presented item set is exactly the one
configure-provider item (so no per-remote copy/open item exists and no
provider URL builder can be invoked) with the no-providers placeholder, for
every resource, placeholder and option combination; the list is presented,
not auto-resolved. -/
theorem c6_zero_remotes_single_configure_item :
    ∀ (resource : RemoteResource) (ph : String) (autoPick : AutoPick)
      (clipboard setDefault : Bool),
    showPicker resource [] ph autoPick clipboard setDefault =
      ShowOutcome.present [PickItem.configureCustomProvider]
        "No auto-detected or configured remote providers found" := by
  intro resource ph autoPick clipboard setDefault
  simp [showPicker]

/-- C3 (counterexample): `reviewDomain` keeps only the first three
dot-separated labels, so for the four-label domain `gerrit.foo.example.com`
the review sub-domain is `gerrit-review.foo.example` — the trailing label is
dropped, not left unchanged as the claim states. -/
theorem c3_review_domain_counterexample :
    reviewDomain ⟨"gerrit.foo.example.com", "proj", "https"⟩ = "gerrit-review.foo.example" ∧
    ("gerrit-review.foo.example" : String) ≠ "gerrit-review.foo.example.com" := by
  decide

/-- C1 (code evaluation at the failing input): the claim's own example does
resolve — with `a` and `a/b` both known, `/proj/+/refs/heads/a/b/file.txt`
yields branch `a/b` and file `file.txt` — but the scan does not start at the
rightmost slash of the remainder: it reuses the `index` left at 5 by the
permalink check, so the first probed split is `lastIndexOf(slash, 4)` and
`/proj/+/refs/heads/master/file.txt` fails to resolve although branch
`master` is known (as does `/proj/+/refs/heads/branch/dir/file.txt` with
branch `branch` known). -/
theorem c1_branch_scan_stale_index :
    getLocalInfoFromRemoteUri ⟨"foo.example.com", "proj", "https"⟩
        ⟨"/repo", ["file.txt"], ["a", "a/b"], []⟩
        ⟨"foo.example.com", "/proj/+/refs/heads/a/b/file.txt", ""⟩ none =
      some ⟨"/repo/file.txt", none⟩ ∧
    getLocalInfoFromRemoteUri ⟨"foo.example.com", "proj", "https"⟩
        ⟨"/repo", ["file.txt", "dir/file.txt"], ["master", "branch"], []⟩
        ⟨"foo.example.com", "/proj/+/refs/heads/master/file.txt", ""⟩ none = none ∧
    getLocalInfoFromRemoteUri ⟨"foo.example.com", "proj", "https"⟩
        ⟨"/repo", ["file.txt", "dir/file.txt"], ["master", "branch"], []⟩
        ⟨"foo.example.com", "/proj/+/refs/heads/branch/dir/file.txt", ""⟩ none = none := by
  decide

/-- C2 (counterexample): the claim's universal round trip fails at these
concrete inputs, against a repository that knows the branch `master` and the
file `file.txt` — the commit builder's URL (it lives on the review
sub-domain, which `getLocalInfoFromRemoteUri` rejects by authority), the
branch builder's URL for `master` (nothing resolvable follows the branch
name), and the file builder's URL for file `file.txt` at branch `master`
(the stale-index branch scan, see C1, misses the split after `master`). -/
theorem c2_roundtrip_counterexample :
    getLocalInfoFromRemoteUri ⟨"foo.example.com", "proj", "https"⟩
        ⟨"/repo", ["file.txt"], ["master"], []⟩
        (parseUrl (getUrlForCommit ⟨"foo.example.com", "proj", "https"⟩
          "aaaaaaaaaaaaaaaaaaaaaaaaaaaaaaaaaaaaaaaa")) none = none ∧
    getLocalInfoFromRemoteUri ⟨"foo.example.com", "proj", "https"⟩
        ⟨"/repo", ["file.txt"], ["master"], []⟩
        (parseUrl (getUrlForBranch ⟨"foo.example.com", "proj", "https"⟩ "master")) none = none ∧
    getLocalInfoFromRemoteUri ⟨"foo.example.com", "proj", "https"⟩
        ⟨"/repo", ["file.txt"], ["master"], []⟩
        (parseUrl (getUrlForFile ⟨"foo.example.com", "proj", "https"⟩ "file.txt"
          (some "master") none none)) none = none := by
  decide

/-- C4: the auto-pick modes of `RemoteProviderPicker.show` — with `'default'`
and several remotes of which one is flagged default, the candidate set
collapses to the (first) default remote and its action item is returned
immediately without presenting a list; with `true` the call auto-resolves
exactly when one remote is present (no default-based collapse); with `false`
the list is always presented (and, when remotes exist, it is the full
per-remote list with the caller's placeholder). -/
theorem c4_show_autopick_modes :
    ∀ (resource : RemoteResource) (remotes : List Remote) (ph : String)
      (clipboard setDefault : Bool),
    (∀ r, 1 < remotes.length → remotes.find? (fun x => x.isDefault) = some r →
      showPicker resource remotes ph AutoPick.default clipboard setDefault =
        ShowOutcome.auto (PickItem.copyOrOpen ⟨r, resource, clipboard, setDefault⟩)) ∧
    (∀ r, remotes = [r] →
      showPicker resource remotes ph (AutoPick.bool true) clipboard setDefault =
        ShowOutcome.auto (PickItem.copyOrOpen ⟨r, resource, clipboard, setDefault⟩)) ∧
    (remotes.length ≠ 1 →
      ∃ items ph2, showPicker resource remotes ph (AutoPick.bool true) clipboard setDefault =
        ShowOutcome.present items ph2) ∧
    (∃ items ph2,
      showPicker resource remotes ph (AutoPick.bool false) clipboard setDefault =
        ShowOutcome.present items ph2 ∧
      (remotes ≠ [] →
        items = remotes.map (fun r => PickItem.copyOrOpen ⟨r, resource, clipboard, setDefault⟩) ∧
        ph2 = ph)) := by
  intro resource remotes ph clipboard setDefault
  refine ⟨?_, ?_, ?_, ?_⟩
  · intro r hlen hfind
    have h0 : ¬remotes.length = 0 := by omega
    simp [showPicker, h0, hlen, hfind, AutoPick.truthy]
  · rintro r rfl
    simp [showPicker, AutoPick.truthy]
  · intro h1
    by_cases h0 : remotes.length = 0
    · obtain rfl := List.length_eq_zero.mp h0
      exact ⟨[PickItem.configureCustomProvider],
        "No auto-detected or configured remote providers found", by simp [showPicker]⟩
    · refine ⟨remotes.map (fun r => PickItem.copyOrOpen ⟨r, resource, clipboard, setDefault⟩),
        ph, ?_⟩
      simp [showPicker, h0, h1, AutoPick.truthy]
  · by_cases h0 : remotes.length = 0
    · obtain rfl := List.length_eq_zero.mp h0
      exact ⟨[PickItem.configureCustomProvider],
        "No auto-detected or configured remote providers found",
        by simp [showPicker], fun hne => absurd rfl hne⟩
    · refine ⟨_, _, ?_, fun _ => ⟨rfl, rfl⟩⟩
      simp [showPicker, h0, AutoPick.truthy]

/-- C4 (witness): a two-remote list with the second flagged default
auto-resolves to that remote under `'default'`; a singleton list auto-resolves
under `true`; a two-remote list under `true` presents; under `false` a
singleton presents the full list. -/
theorem c4_show_autopick_modes_witness :
    showPicker (RemoteResource.branch "main")
        [⟨"origin", "p", "/rp", "u", "gerrit", false, false, none⟩,
         ⟨"upstream", "p", "/rp", "u", "gerrit", true, false, none⟩]
        "Choose" AutoPick.default false true =
      ShowOutcome.auto (PickItem.copyOrOpen
        ⟨⟨"upstream", "p", "/rp", "u", "gerrit", true, false, none⟩,
          RemoteResource.branch "main", false, true⟩) ∧
    showPicker (RemoteResource.branch "main")
        [⟨"origin", "p", "/rp", "u", "gerrit", false, false, none⟩]
        "Choose" (AutoPick.bool true) false true =
      ShowOutcome.auto (PickItem.copyOrOpen
        ⟨⟨"origin", "p", "/rp", "u", "gerrit", false, false, none⟩,
          RemoteResource.branch "main", false, true⟩) ∧
    (∃ items ph2, showPicker (RemoteResource.branch "main")
        [⟨"origin", "p", "/rp", "u", "gerrit", false, false, none⟩,
         ⟨"upstream", "p", "/rp", "u", "gerrit", true, false, none⟩]
        "Choose" (AutoPick.bool true) false true = ShowOutcome.present items ph2) ∧
    (∃ items ph2, showPicker (RemoteResource.branch "main")
        [⟨"origin", "p", "/rp", "u", "gerrit", false, false, none⟩]
        "Choose" (AutoPick.bool false) false true = ShowOutcome.present items ph2) := by
  refine ⟨?_, ?_, ?_, ?_⟩
  · exact (c4_show_autopick_modes (RemoteResource.branch "main") _ "Choose" false true).1
      _ (by decide) (by decide)
  · exact (c4_show_autopick_modes (RemoteResource.branch "main") _ "Choose" false true).2.1
      _ rfl
  · exact (c4_show_autopick_modes (RemoteResource.branch "main") _ "Choose" false true).2.2.1
      (by decide)
  · obtain ⟨items, ph2, h, -⟩ :=
      (c4_show_autopick_modes (RemoteResource.branch "main")
        [⟨"origin", "p", "/rp", "u", "gerrit", false, false, none⟩] "Choose" false true).2.2.2
    exact ⟨items, ph2, h⟩

/-- C5: when the activated resource is a File resource carrying a branchOrTag
and the provider id is `bitbucket` or `bitbucket-server`, `execute` re-resolves
the branch/tag to a sha via `getBranchesAndOrTags` and rewrites the resource to
a commit-pinned `Revision` before dispatching copy/open; when the lookup yields
no sha (no result list, an empty list, a sha-less entry) — or a falsy empty
sha — the resource stays the original File resource and copy/open still
proceeds. -/
theorem c5_bitbucket_revision_rewrite :
    ∀ (remote : Remote) (git : GitServices) (fileName branchOrTagName : String)
      (range : Option JsRange) (clipboard btn : Bool),
    (remote.providerId = "bitbucket" ∨ remote.providerId = "bitbucket-server") →
    ((∀ e rest s, git.getBranchesAndOrTags remote.repoPath branchOrTagName = some (e :: rest) →
        e.sha = some s → s ≠ "" →
        execute ⟨remote, RemoteResource.file fileName (some branchOrTagName) range,
            clipboard, btn⟩ git =
          ((if clipboard then
              RemoteEffect.copyUrl (RemoteResource.revision fileName (some branchOrTagName) range s)
            else
              RemoteEffect.openUrl (RemoteResource.revision fileName (some branchOrTagName) range s)),
           ⟨remote, RemoteResource.file fileName (some branchOrTagName) range, clipboard, btn⟩)) ∧
     (git.getBranchesAndOrTags remote.repoPath branchOrTagName = none →
        execute ⟨remote, RemoteResource.file fileName (some branchOrTagName) range,
            clipboard, btn⟩ git =
          ((if clipboard then
              RemoteEffect.copyUrl (RemoteResource.file fileName (some branchOrTagName) range)
            else
              RemoteEffect.openUrl (RemoteResource.file fileName (some branchOrTagName) range)),
           ⟨remote, RemoteResource.file fileName (some branchOrTagName) range, clipboard, btn⟩)) ∧
     (git.getBranchesAndOrTags remote.repoPath branchOrTagName = some [] →
        execute ⟨remote, RemoteResource.file fileName (some branchOrTagName) range,
            clipboard, btn⟩ git =
          ((if clipboard then
              RemoteEffect.copyUrl (RemoteResource.file fileName (some branchOrTagName) range)
            else
              RemoteEffect.openUrl (RemoteResource.file fileName (some branchOrTagName) range)),
           ⟨remote, RemoteResource.file fileName (some branchOrTagName) range, clipboard, btn⟩)) ∧
     (∀ e rest, git.getBranchesAndOrTags remote.repoPath branchOrTagName = some (e :: rest) →
        e.sha = none →
        execute ⟨remote, RemoteResource.file fileName (some branchOrTagName) range,
            clipboard, btn⟩ git =
          ((if clipboard then
              RemoteEffect.copyUrl (RemoteResource.file fileName (some branchOrTagName) range)
            else
              RemoteEffect.openUrl (RemoteResource.file fileName (some branchOrTagName) range)),
           ⟨remote, RemoteResource.file fileName (some branchOrTagName) range, clipboard, btn⟩)) ∧
     (∀ e rest, git.getBranchesAndOrTags remote.repoPath branchOrTagName = some (e :: rest) →
        e.sha = some "" →
        execute ⟨remote, RemoteResource.file fileName (some branchOrTagName) range,
            clipboard, btn⟩ git =
          ((if clipboard then
              RemoteEffect.copyUrl (RemoteResource.file fileName (some branchOrTagName) range)
            else
              RemoteEffect.openUrl (RemoteResource.file fileName (some branchOrTagName) range)),
           ⟨remote, RemoteResource.file fileName (some branchOrTagName) range, clipboard, btn⟩))) := by
  intro remote git fileName branchOrTagName range clipboard btn hid
  have hid2 : (remote.providerId == "bitbucket" || remote.providerId == "bitbucket-server") = true := by
    rcases hid with h | h <;> simp [h]
  refine ⟨?_, ?_, ?_, ?_, ?_⟩
  · intro e rest s hlook hsha hne
    simp [execute, deriveResource, hid2, hlook, hsha, hne]
  · intro hnone
    simp [execute, deriveResource, hid2, hnone]
  · intro hempty
    simp [execute, deriveResource, hid2, hempty]
  · intro e rest hlook hsha
    simp [execute, deriveResource, hid2, hlook, hsha]
  · intro e rest hlook hsha
    simp [execute, deriveResource, hid2, hlook, hsha]

/-- C5 (witness): with provider `bitbucket` and a lookup returning sha
`cafe...`, the effect targets the rewritten Revision resource; with a lookup
returning nothing, the effect targets the original File resource. -/
theorem c5_bitbucket_revision_rewrite_witness :
    execute ⟨⟨"origin", "p", "/rp", "u", "bitbucket", false, false, none⟩,
        RemoteResource.file "f.txt" (some "dev") none, false, true⟩
      ⟨fun _ _ => none, fun _ _ => some [⟨"dev", some "cafe"⟩]⟩ =
      (RemoteEffect.openUrl (RemoteResource.revision "f.txt" (some "dev") none "cafe"),
       ⟨⟨"origin", "p", "/rp", "u", "bitbucket", false, false, none⟩,
        RemoteResource.file "f.txt" (some "dev") none, false, true⟩) ∧
    execute ⟨⟨"origin", "p", "/rp", "u", "bitbucket", false, false, none⟩,
        RemoteResource.file "f.txt" (some "dev") none, false, true⟩
      ⟨fun _ _ => none, fun _ _ => none⟩ =
      (RemoteEffect.openUrl (RemoteResource.file "f.txt" (some "dev") none),
       ⟨⟨"origin", "p", "/rp", "u", "bitbucket", false, false, none⟩,
        RemoteResource.file "f.txt" (some "dev") none, false, true⟩) := by
  constructor
  · exact ((c5_bitbucket_revision_rewrite
      ⟨"origin", "p", "/rp", "u", "bitbucket", false, false, none⟩
      ⟨fun _ _ => none, fun _ _ => some [⟨"dev", some "cafe"⟩]⟩
      "f.txt" "dev" none false true (Or.inl rfl)).1
      ⟨"dev", some "cafe"⟩ [] "cafe" rfl rfl (by decide))
  · exact ((c5_bitbucket_revision_rewrite
      ⟨"origin", "p", "/rp", "u", "bitbucket", false, false, none⟩
      ⟨fun _ _ => none, fun _ _ => none⟩
      "f.txt" "dev" none false true (Or.inl rfl)).2.1 rfl)

/-- Whatever the branch/tag scan loop returns carries exactly the start line
it was given, and its local URI comes from a successful `toAbs` call. -/
theorem scanLoop_some_props (known : List String) (toAbs : String → Option String)
    (bp : String) (sl : Option Nat) :
    ∀ (fuel : Nat) (index : Int) (r : ResolvedLocation),
    scanLoop known toAbs bp sl fuel index = some r →
    r.startLine = sl ∧ ∃ s, toAbs s = some r.uri := by
  intro fuel
  induction fuel with
  | zero => intro index r h; exact Option.noConfusion h
  | succ n ih =>
    intro index r h
    simp only [scanLoop] at h
    split at h
    next r0 heq =>
      cases h
      split at heq
      · split at heq
        next u habs =>
          cases heq
          exact ⟨rfl, _, habs⟩
        next => exact Option.noConfusion heq
      · exact Option.noConfusion heq
    next heq =>
      split at h
      · exact ih _ r h
      · exact Option.noConfusion h

/-- Whenever `getLocalInfoFromRemoteUri` succeeds, the result carries exactly
the start line extracted from the fragment, and its local URI was produced by
a successful `toAbsoluteUri` call on some suffix of the URL path. -/
theorem getLocalInfo_some_props (c : GerritCfg) (repository : Repo) (uri : JsUri)
    (validate : Option Bool) (loc : ResolvedLocation) :
    getLocalInfoFromRemoteUri c repository uri validate = some loc →
    loc.startLine = fragmentStartLine uri.fragment ∧
    ∃ s, repository.toAbsoluteUri s validate = some loc.uri := by
  intro h
  simp only [getLocalInfoFromRemoteUri] at h
  split at h
  · exact Option.noConfusion h
  · split at h
    · exact Option.noConfusion h
    · split at h
      next => exact Option.noConfusion h
      next pr path heq =>
        split at h
        next r0 heq2 =>
          injection h with h2
          subst h2
          split at heq2
          · split at heq2
            · split at heq2
              next u habs =>
                injection heq2 with h3
                subst h3
                exact ⟨rfl, _, habs⟩
              next => exact Option.noConfusion heq2
            · exact Option.noConfusion heq2
          · exact Option.noConfusion heq2
        next heq2 =>
          split at h
          · exact scanLoop_some_props _ _ _ _ _ _ _ h
          · split at h
            · exact scanLoop_some_props _ _ _ _ _ _ _ h
            · exact Option.noConfusion h

/-- C7: a resolved location carries starting line `n` exactly when the URL
fragment is a purely numeric string denoting `n` (digit characters, decimal
value `n`); any other fragment yields an absent start line and does not by
itself make resolution fail — resolution with a non-numeric fragment behaves
exactly as with no fragment at all. -/
theorem c7_fragment_start_line :
    ∀ (c : GerritCfg) (repository : Repo) (validate : Option Bool),
    (∀ (uri : JsUri) (loc : ResolvedLocation),
      getLocalInfoFromRemoteUri c repository uri validate = some loc →
      loc.startLine = fragmentStartLine uri.fragment) ∧
    (∀ (f : String) (n : Nat),
      fragmentStartLine f = some n ↔
        f ≠ "" ∧ f.data.all Char.isDigit = true ∧ parseInt10 f = n) ∧
    (∀ (a p f : String), fragmentStartLine f = none →
      getLocalInfoFromRemoteUri c repository ⟨a, p, f⟩ validate =
        getLocalInfoFromRemoteUri c repository ⟨a, p, ""⟩ validate) := by
  intro c repository validate
  refine ⟨?_, ?_, ?_⟩
  · intro uri loc h
    exact (getLocalInfo_some_props c repository uri validate loc h).1
  · intro f n
    by_cases he : f.isEmpty = true
    · obtain rfl := (String.isEmpty_iff f).mp he
      simp [fragmentStartLine, he]
    · have hne : f ≠ "" := fun hf => he ((String.isEmpty_iff f).mpr hf)
      by_cases hd : f.data.all Char.isDigit
      · simp [fragmentStartLine, rangeRegexExec, he, hd, hne]
      · simp [fragmentStartLine, rangeRegexExec, he, hd]
  · intro a p f hf
    simp only [getLocalInfoFromRemoteUri]
    rw [hf]
    rfl

/-- C7 (witness): a commit permalink with fragment `42` resolves with start
line 42; the characterization holds at fragment `42` and value 42; the
non-numeric fragment `foo` resolves exactly as no fragment. -/
theorem c7_fragment_start_line_witness :
    (getLocalInfoFromRemoteUri ⟨"foo.example.com", "proj", "https"⟩
        ⟨"/repo", ["dir/file.txt"], [], []⟩
        ⟨"foo.example.com",
          "/proj/+/aaaaaaaaaaaaaaaaaaaaaaaaaaaaaaaaaaaaaaaa/dir/file.txt", "42"⟩ none =
      some ⟨"/repo/dir/file.txt", some 42⟩ →
      (some 42 : Option Nat) = fragmentStartLine "42") ∧
    (fragmentStartLine "42" = some 42 ↔
      ("42" : String) ≠ "" ∧ "42".data.all Char.isDigit = true ∧ parseInt10 "42" = 42) ∧
    (fragmentStartLine "foo" = none →
      getLocalInfoFromRemoteUri ⟨"foo.example.com", "proj", "https"⟩
          ⟨"/repo", ["dir/file.txt"], [], []⟩
          ⟨"foo.example.com",
            "/proj/+/aaaaaaaaaaaaaaaaaaaaaaaaaaaaaaaaaaaaaaaa/dir/file.txt", "foo"⟩ none =
        getLocalInfoFromRemoteUri ⟨"foo.example.com", "proj", "https"⟩
          ⟨"/repo", ["dir/file.txt"], [], []⟩
          ⟨"foo.example.com",
            "/proj/+/aaaaaaaaaaaaaaaaaaaaaaaaaaaaaaaaaaaaaaaa/dir/file.txt", ""⟩ none) := by
  refine ⟨?_, ?_, ?_⟩
  · intro h
    exact ((c7_fragment_start_line ⟨"foo.example.com", "proj", "https"⟩
      ⟨"/repo", ["dir/file.txt"], [], []⟩ none).1 _ _ h).symm
  · exact (c7_fragment_start_line ⟨"foo.example.com", "proj", "https"⟩
      ⟨"/repo", ["dir/file.txt"], [], []⟩ none).2.1 "42" 42
  · exact (c7_fragment_start_line ⟨"foo.example.com", "proj", "https"⟩
      ⟨"/repo", ["dir/file.txt"], [], []⟩ none).2.2 "foo.example.com"
      "/proj/+/aaaaaaaaaaaaaaaaaaaaaaaaaaaaaaaaaaaaaaaa/dir/file.txt" "foo"

/-- C9: reverse resolution is total (the embedding can raise nothing) and
returns `none` whenever the URL's host differs from the configured domain,
whenever validation is on and the path does not start with `/<projectPath>/`,
whenever the `/<project>/+<rest>` pattern does not match, and a successful
result always means some commit/branch/tag interpretation resolved through
the repository service. -/
theorem c9_reject_conditions :
    ∀ (c : GerritCfg) (repository : Repo) (uri : JsUri) (validate : Option Bool),
    (uri.authority ≠ c.domain → getLocalInfoFromRemoteUri c repository uri validate = none) ∧
    (validate.getD true = true →
      jsStartsWith uri.path ("/" ++ c.path ++ "/") = false →
      getLocalInfoFromRemoteUri c repository uri validate = none) ∧
    (fileRegexExec uri.path = none →
      getLocalInfoFromRemoteUri c repository uri validate = none) ∧
    (∀ loc, getLocalInfoFromRemoteUri c repository uri validate = some loc →
      ∃ s, repository.toAbsoluteUri s validate = some loc.uri) := by
  intro c repository uri validate
  refine ⟨?_, ?_, ?_, ?_⟩
  · intro h
    simp [getLocalInfoFromRemoteUri, h]
  · intro hv hsw
    by_cases ha : uri.authority = c.domain
    · simp [getLocalInfoFromRemoteUri, ha, hv, hsw]
    · simp [getLocalInfoFromRemoteUri, ha]
  · intro hregex
    by_cases ha : uri.authority = c.domain
    · simp [getLocalInfoFromRemoteUri, ha, hregex, ite_self]
    · simp [getLocalInfoFromRemoteUri, ha]
  · intro loc h
    exact (getLocalInfo_some_props c repository uri validate loc h).2

/-- C9 (witness): concrete rejections — wrong host, path outside the project
with validation on, a path without the `/+` separator — and a concrete
success whose local URI indeed comes from the repository service. -/
theorem c9_reject_conditions_witness :
    (getLocalInfoFromRemoteUri ⟨"foo.example.com", "proj", "https"⟩
        ⟨"/repo", ["f.txt"], [], []⟩
        ⟨"other.example.com", "/proj/+/HEAD/f.txt", ""⟩ none = none) ∧
    (getLocalInfoFromRemoteUri ⟨"foo.example.com", "proj", "https"⟩
        ⟨"/repo", ["f.txt"], [], []⟩
        ⟨"foo.example.com", "/other/+/HEAD/f.txt", ""⟩ none = none) ∧
    (getLocalInfoFromRemoteUri ⟨"foo.example.com", "proj", "https"⟩
        ⟨"/repo", ["f.txt"], [], []⟩
        ⟨"foo.example.com", "/proj/readme", ""⟩ (some false) = none) ∧
    (∃ s, Repo.toAbsoluteUri ⟨"/repo", ["f.txt"], [], []⟩ s none = some "/repo/f.txt") := by
  refine ⟨?_, ?_, ?_, ?_⟩
  · exact (c9_reject_conditions ⟨"foo.example.com", "proj", "https"⟩
      ⟨"/repo", ["f.txt"], [], []⟩ ⟨"other.example.com", "/proj/+/HEAD/f.txt", ""⟩ none).1
      (by decide)
  · exact (c9_reject_conditions ⟨"foo.example.com", "proj", "https"⟩
      ⟨"/repo", ["f.txt"], [], []⟩ ⟨"foo.example.com", "/other/+/HEAD/f.txt", ""⟩ none).2.1
      (by decide) (by decide)
  · exact (c9_reject_conditions ⟨"foo.example.com", "proj", "https"⟩
      ⟨"/repo", ["f.txt"], [], []⟩ ⟨"foo.example.com", "/proj/readme", ""⟩ (some false)).2.2.1
      (by decide)
  · exact (c9_reject_conditions ⟨"foo.example.com", "proj", "https"⟩
      ⟨"/repo", ["f.txt"], [], []⟩ ⟨"foo.example.com", "/proj/+/HEAD/f.txt", ""⟩ none).2.2.2
      ⟨"/repo/f.txt", none⟩ (by decide)

theorem jsSplit_ne_nil (c : Char) : ∀ l : List Char, jsSplit c l ≠ [] := by
  intro l
  induction l with
  | nil => exact fun h => List.noConfusion h
  | cons x xs ih =>
    by_cases hx : x = c
    · simp [jsSplit, hx]
    · simp only [jsSplit, if_neg hx]
      cases hsp : jsSplit c xs with
      | nil => exact fun h => List.noConfusion h
      | cons h t => exact fun h2 => List.noConfusion h2

theorem jsSplit_no_sep (c : Char) : ∀ l : List Char, (∀ x ∈ l, x ≠ c) → jsSplit c l = [l] := by
  intro l
  induction l with
  | nil => exact fun _ => rfl
  | cons x xs ih =>
    intro h
    have hx : x ≠ c := h x (List.mem_cons_self x xs)
    have hxs := ih (fun y hy => h y (List.mem_cons_of_mem x hy))
    simp [jsSplit, hx, hxs]

theorem jsSplit_append (c : Char) (a rest : List Char) (ha : ∀ x ∈ a, x ≠ c) :
    jsSplit c (a ++ c :: rest) = a :: jsSplit c rest := by
  induction a with
  | nil => simp [jsSplit]
  | cons x xs ih =>
    have hx : x ≠ c := ha x (List.mem_cons_self x xs)
    have hxs := ih (fun y hy => ha y (List.mem_cons_of_mem x hy))
    simp [jsSplit, hx, hxs]

/-- C3 (amended): for every configured domain with exactly three dot-separated
labels, the review sub-domain is the domain with `-review` appended to its
first label and the other two labels unchanged — in particular
`foo.example.com` yields `foo-review.example.com` exactly — and this is the
sub-domain embedded in the autolink URL template. (Domains with a different
label count are truncated or padded to three labels, see the counterexample.) -/
theorem c3_review_domain_three_labels :
    ∀ (a b c pathStr protocol : String),
    (∀ ch ∈ a.data, ch ≠ '.') → (∀ ch ∈ b.data, ch ≠ '.') → (∀ ch ∈ c.data, ch ≠ '.') →
    (reviewDomain ⟨a ++ "." ++ b ++ "." ++ c, pathStr, protocol⟩ =
      a ++ "-review." ++ b ++ "." ++ c) ∧
    (reviewDomain ⟨"foo.example.com", "proj", "https"⟩ = "foo-review.example.com") ∧
    (autolinkUrl ⟨a ++ "." ++ b ++ "." ++ c, pathStr, protocol⟩ =
      protocol ++ "://" ++ (a ++ "-review." ++ b ++ "." ++ c) ++ "/q/<num>") := by
  intro a b c pathStr protocol ha hb hc
  have hdata : ((a ++ "." ++ b ++ "." ++ c : String)).data =
      a.data ++ '.' :: (b.data ++ '.' :: c.data) := by
    simp [String.data_append]
  have hsplit : jsSplit '.' ((a ++ "." ++ b ++ "." ++ c : String)).data =
      [a.data, b.data, c.data] := by
    rw [hdata, jsSplit_append '.' _ _ ha, jsSplit_append '.' _ _ hb, jsSplit_no_sep '.' _ hc]
  have hrd : reviewDomain ⟨a ++ "." ++ b ++ "." ++ c, pathStr, protocol⟩ =
      a ++ "-review." ++ b ++ "." ++ c := by
    simp only [reviewDomain, hsplit]
    rw [← stringMk_data (a ++ "-review." ++ b ++ "." ++ c)]
    apply congrArg String.mk
    simp [String.data_append]
  refine ⟨hrd, by decide, ?_⟩
  simp only [autolinkUrl, baseReviewUrl, hrd]

/-- C3 (witness): the amended statement at the three dot-free labels
`foo`, `example`, `com`. -/
theorem c3_review_domain_three_labels_witness :
    (reviewDomain ⟨"foo" ++ "." ++ "example" ++ "." ++ "com", "proj", "https"⟩ =
      "foo" ++ "-review." ++ "example" ++ "." ++ "com") ∧
    (reviewDomain ⟨"foo.example.com", "proj", "https"⟩ = "foo-review.example.com") ∧
    (autolinkUrl ⟨"foo" ++ "." ++ "example" ++ "." ++ "com", "proj", "https"⟩ =
      "https" ++ "://" ++ ("foo" ++ "-review." ++ "example" ++ "." ++ "com") ++ "/q/<num>") :=
  c3_review_domain_three_labels "foo" "example" "com" "proj" "https"
    (by decide) (by decide) (by decide)

theorem flatMap_id_of_safe (l : List Char) (h : ∀ ch ∈ l, isUrlSafeChar ch = true) :
    l.flatMap (fun c => if isUrlSafeChar c then [c] else percentEncodeChar c) = l := by
  induction l with
  | nil => rfl
  | cons x xs ih =>
    have hx : isUrlSafeChar x = true := h x (List.mem_cons_self x xs)
    have hxs := ih (fun y hy => h y (List.mem_cons_of_mem x hy))
    simp [hx, hxs]

/-- On a string whose characters all need no escaping, `encodeUrl` is the
identity. -/
theorem encodeUrl_safe (s : String) (h : ∀ ch ∈ s.data, isUrlSafeChar ch = true) :
    encodeUrl s = s := by
  unfold encodeUrl
  rw [flatMap_id_of_safe s.data h, stringMk_data]

theorem safe_append {x y : String} (hx : ∀ ch ∈ x.data, isUrlSafeChar ch = true)
    (hy : ∀ ch ∈ y.data, isUrlSafeChar ch = true) :
    ∀ ch ∈ (x ++ y).data, isUrlSafeChar ch = true := by
  intro ch hch
  rw [String.data_append] at hch
  rcases List.mem_append.mp hch with h | h
  exacts [hx ch h, hy ch h]

theorem stringEqOfData {x y : String} (h : x.data = y.data) : x = y := by
  cases x
  cases y
  exact congrArg String.mk h

/-- C8: the file builder produces `<browseBase>/+/<ref>/<path>` with `ref`
being the sha when one is (truthily) given, else the branch reference
`refs/heads/<branch>` when a branch is (truthily) given, else the literal
`HEAD`; a given range appends a `#<line>` fragment rendering the range's
stored (0-based) start line. Stated on inputs whose characters need no
percent-escaping, where the URL encoding is the identity. -/
theorem c8_get_url_for_file :
    ∀ (cfg : GerritCfg) (fileName : String) (branch sha : Option String)
      (range : Option JsRange),
    (∀ ch ∈ cfg.protocol.data, isUrlSafeChar ch = true) →
    (∀ ch ∈ cfg.domain.data, isUrlSafeChar ch = true) →
    (∀ ch ∈ cfg.path.data, isUrlSafeChar ch = true) →
    (∀ ch ∈ fileName.data, isUrlSafeChar ch = true) →
    (∀ b0, branch = some b0 → ∀ ch ∈ b0.data, isUrlSafeChar ch = true) →
    (∀ s0, sha = some s0 → ∀ ch ∈ s0.data, isUrlSafeChar ch = true) →
    getUrlForFile cfg fileName branch sha range =
      baseUrl cfg ++ "/+/" ++
        (if strTruthy sha then sha.getD ""
         else if strTruthy branch then "refs/heads/" ++ branch.getD ""
         else "HEAD") ++ "/" ++ fileName ++
        (match range with
         | some r => "#" ++ Nat.repr r.start.line
         | none => "") := by
  intro cfg fileName branch sha range hprot hdom hpath hfile hbr hsha
  have hlit : ∀ (s : String), s = "://" ∨ s = "/" ∨ s = "/+/" ∨ s = "/+/refs/heads/" ∨
      s = "/+/HEAD/" → ∀ ch ∈ s.data, isUrlSafeChar ch = true := by
    rintro s (rfl | rfl | rfl | rfl | rfl) <;> decide
  have hbase : ∀ ch ∈ (baseUrl cfg).data, isUrlSafeChar ch = true :=
    safe_append (safe_append (safe_append (safe_append hprot
      (hlit "://" (by tauto))) hdom) (hlit "/" (by tauto))) hpath
  by_cases hs : strTruthy sha = true
  · obtain ⟨s0, rfl⟩ : ∃ s0, sha = some s0 := by
      cases sha with
      | none => exact absurd hs (by simp [strTruthy])
      | some s0 => exact ⟨s0, rfl⟩
    have hsafe : ∀ ch ∈ (baseUrl cfg ++ "/+/" ++ (some s0).getD "" ++ "/" ++ fileName).data,
        isUrlSafeChar ch = true :=
      safe_append (safe_append (safe_append (safe_append hbase (hlit "/+/" (by tauto)))
        (hsha s0 rfl)) (hlit "/" (by tauto))) hfile
    simp only [getUrlForFile, hs, if_true]
    rw [encodeUrl_safe _ hsafe]
  · by_cases hb : strTruthy branch = true
    · obtain ⟨b0, rfl⟩ : ∃ b0, branch = some b0 := by
        cases branch with
        | none => exact absurd hb (by simp [strTruthy])
        | some b0 => exact ⟨b0, rfl⟩
      have hbranchUrl : getUrlForBranch cfg ((some b0).getD "") =
          baseUrl cfg ++ "/+/refs/heads/" ++ b0 := by
        unfold getUrlForBranch
        exact encodeUrl_safe _ (safe_append (safe_append hbase
          (hlit "/+/refs/heads/" (by tauto))) (hbr b0 rfl))
      have hsafe : ∀ ch ∈ ((baseUrl cfg ++ "/+/refs/heads/" ++ b0) ++ "/" ++ fileName).data,
          isUrlSafeChar ch = true :=
        safe_append (safe_append (safe_append (safe_append hbase
          (hlit "/+/refs/heads/" (by tauto))) (hbr b0 rfl)) (hlit "/" (by tauto))) hfile
      simp only [getUrlForFile, hs, hb, if_true, Bool.false_eq_true, if_false, hbranchUrl]
      rw [encodeUrl_safe _ hsafe]
      cases range <;> (apply stringEqOfData; simp [String.data_append])
    · have hsafe : ∀ ch ∈ (baseUrl cfg ++ "/+/HEAD/" ++ fileName).data,
          isUrlSafeChar ch = true :=
        safe_append (safe_append hbase (hlit "/+/HEAD/" (by tauto))) hfile
      simp only [getUrlForFile, hs, hb, Bool.false_eq_true, if_false]
      rw [encodeUrl_safe _ hsafe]
      cases range <;> (apply stringEqOfData; simp [String.data_append])

/-- C8 (witness): the three reference cases evaluated at concrete safe inputs
(sha wins over branch; branch alone; neither). -/
theorem c8_get_url_for_file_witness :
    getUrlForFile ⟨"foo.example.com", "proj", "https"⟩ "dir/f.txt" (some "dev")
        (some "cafe") (some ⟨⟨7⟩⟩) =
      baseUrl ⟨"foo.example.com", "proj", "https"⟩ ++ "/+/" ++
        (if strTruthy (some "cafe") then (some "cafe").getD ""
         else if strTruthy (some "dev") then "refs/heads/" ++ (some "dev").getD ""
         else "HEAD") ++ "/" ++ "dir/f.txt" ++
        (match (some (⟨⟨7⟩⟩ : JsRange)) with
         | some r => "#" ++ Nat.repr r.start.line
         | none => "") ∧
    getUrlForFile ⟨"foo.example.com", "proj", "https"⟩ "dir/f.txt" (some "dev") none none =
      baseUrl ⟨"foo.example.com", "proj", "https"⟩ ++ "/+/" ++
        (if strTruthy (none : Option String) then (none : Option String).getD ""
         else if strTruthy (some "dev") then "refs/heads/" ++ (some "dev").getD ""
         else "HEAD") ++ "/" ++ "dir/f.txt" ++
        (match (none : Option JsRange) with
         | some r => "#" ++ Nat.repr r.start.line
         | none => "") ∧
    getUrlForFile ⟨"foo.example.com", "proj", "https"⟩ "dir/f.txt" none none none =
      baseUrl ⟨"foo.example.com", "proj", "https"⟩ ++ "/+/" ++
        (if strTruthy (none : Option String) then (none : Option String).getD ""
         else if strTruthy (none : Option String) then "refs/heads/" ++ (none : Option String).getD ""
         else "HEAD") ++ "/" ++ "dir/f.txt" ++
        (match (none : Option JsRange) with
         | some r => "#" ++ Nat.repr r.start.line
         | none => "") := by
  refine ⟨?_, ?_, ?_⟩
  · exact c8_get_url_for_file ⟨"foo.example.com", "proj", "https"⟩ "dir/f.txt"
      (some "dev") (some "cafe") (some ⟨⟨7⟩⟩) (by decide) (by decide) (by decide) (by decide)
      (by rintro b0 ⟨rfl⟩; decide) (by rintro s0 ⟨rfl⟩; decide)
  · exact c8_get_url_for_file ⟨"foo.example.com", "proj", "https"⟩ "dir/f.txt"
      (some "dev") none none (by decide) (by decide) (by decide) (by decide)
      (by rintro b0 ⟨rfl⟩; decide) (by rintro s0 h; exact Option.noConfusion h)
  · exact c8_get_url_for_file ⟨"foo.example.com", "proj", "https"⟩ "dir/f.txt"
      none none none (by decide) (by decide) (by decide) (by decide)
      (by rintro b0 h; exact Option.noConfusion h) (by rintro s0 h; exact Option.noConfusion h)

theorem takeWhile_append_cons (p : Char → Bool) (a : List Char) (c : Char) (b : List Char)
    (ha : ∀ x ∈ a, p x = true) (hc : p c = false) :
    (a ++ c :: b).takeWhile p = a := by
  induction a with
  | nil => simp [List.takeWhile, hc]
  | cons x xs ih =>
    have hx : p x = true := ha x (List.mem_cons_self x xs)
    have hxs := ih (fun y hy => ha y (List.mem_cons_of_mem x hy))
    simp [List.takeWhile, hx, hxs]

theorem takeWhile_all (p : Char → Bool) (l : List Char) (h : ∀ x ∈ l, p x = true) :
    l.takeWhile p = l := by
  induction l with
  | nil => rfl
  | cons x xs ih =>
    have hx : p x = true := h x (List.mem_cons_self x xs)
    have hxs := ih (fun y hy => h y (List.mem_cons_of_mem x hy))
    simp [List.takeWhile, hx, hxs]

theorem drop_append_cons (a : List Char) (c : Char) (b : List Char) :
    (a ++ c :: b).drop (a.length + 1) = b := by
  have h : a ++ c :: b = (a ++ [c]) ++ b := by simp
  have h2 : (a ++ [c]).length = a.length + 1 := by simp
  rw [h, ← h2, List.drop_left]

theorem dropScheme_append (p rest : List Char) (hp : ∀ x ∈ p, x ≠ ':') :
    dropScheme (p ++ ':' :: '/' :: '/' :: rest) = rest := by
  induction p with
  | nil => simp [dropScheme]
  | cons x xs ih =>
    have hx : x ≠ ':' := hp x (List.mem_cons_self x xs)
    have hxs := ih (fun y hy => hp y (List.mem_cons_of_mem x hy))
    simp [dropScheme, hx, hxs]

theorem jsIndexOfAux_append (c : Char) (a : List Char) (b : List Char)
    (ha : ∀ x ∈ a, x ≠ c) : ∀ i : Nat, jsIndexOfAux c (a ++ c :: b) i = some (i + a.length) := by
  induction a with
  | nil => intro i; simp [jsIndexOfAux]
  | cons x xs ih =>
    intro i
    have hx : x ≠ c := ha x (List.mem_cons_self x xs)
    have hxs := ih (fun y hy => ha y (List.mem_cons_of_mem x hy))
    simp only [List.cons_append, jsIndexOfAux, if_neg hx, List.append_eq, hxs (i + 1),
      List.length_cons, Option.some.injEq]
    omega

/-! Decimal rendering (`Nat.repr`, used by the builders' `#line` fragment)
round-trips with the fragment parser. -/

theorem digitChar_props : ∀ m : Nat, m < 10 →
    (Nat.digitChar m).isDigit = true ∧ (Nat.digitChar m).toNat = 48 + m := by
  decide

theorem toDigitsSpec_digits : ∀ n : Nat, ∀ ch ∈ toDigitsSpec n, ch.isDigit = true := by
  intro n
  induction n using Nat.strong_induction_on with
  | _ n ih =>
    rw [toDigitsSpec]
    split
    · next h =>
      intro ch hch
      rw [List.mem_singleton] at hch
      subst hch
      exact (digitChar_props n h).1
    · next h =>
      intro ch hch
      rcases List.mem_append.mp hch with h2 | h2
      · exact ih (n / 10) (Nat.div_lt_self (by omega) (by omega)) ch h2
      · rw [List.mem_singleton] at h2
        subst h2
        exact (digitChar_props (n % 10) (Nat.mod_lt n (by omega))).1

theorem toDigitsSpec_ne_nil (n : Nat) : toDigitsSpec n ≠ [] := by
  rw [toDigitsSpec]
  split
  · exact fun h => List.noConfusion h
  · simp

theorem natOfDigitsAux_spec : ∀ n : Nat, ∀ a : Nat,
    natOfDigitsAux (toDigitsSpec n) a = a * 10 ^ (toDigitsSpec n).length + n := by
  intro n
  induction n using Nat.strong_induction_on with
  | _ n ih =>
    intro a
    rw [toDigitsSpec]
    split
    · next h =>
      have hd := digitChar_props n h
      simp [natOfDigitsAux, hd.2]
      omega
    · next h =>
      have hq := ih (n / 10) (Nat.div_lt_self (by omega) (by omega))
      have hd := digitChar_props (n % 10) (Nat.mod_lt n (by omega))
      have happ : natOfDigitsAux (toDigitsSpec (n / 10) ++ [Nat.digitChar (n % 10)]) a =
          natOfDigitsAux [Nat.digitChar (n % 10)] (natOfDigitsAux (toDigitsSpec (n / 10)) a) := by
        clear hq
        generalize toDigitsSpec (n / 10) = l
        induction l generalizing a with
        | nil => rfl
        | cons x xs ih2 => simp [natOfDigitsAux, ih2]
      rw [happ, hq a]
      simp only [natOfDigitsAux, hd.2, List.length_append, List.length_singleton]
      have hmod : 48 + n % 10 - 48 = n % 10 := by omega
      rw [hmod, pow_succ]
      have := Nat.div_add_mod n 10
      ring_nf
      omega

theorem toDigitsCore_spec : ∀ (fuel : Nat), ∀ (n : Nat) (ds : List Char), n < 10 ^ (fuel + 1) →
    Nat.toDigitsCore 10 (fuel + 1) n ds = toDigitsSpec n ++ ds := by
  intro fuel
  induction fuel with
  | zero =>
    intro n ds h
    have h10 : n < 10 := by simpa using h
    have hn : n / 10 = 0 := Nat.div_eq_of_lt h10
    have hm : n % 10 = n := Nat.mod_eq_of_lt h10
    rw [toDigitsSpec]
    simp [Nat.toDigitsCore, hn, hm, h10]
  | succ k ih =>
    intro n ds h
    by_cases h10 : n < 10
    · have hn : n / 10 = 0 := Nat.div_eq_of_lt h10
      have hm : n % 10 = n := Nat.mod_eq_of_lt h10
      rw [toDigitsSpec]
      simp [Nat.toDigitsCore, hn, hm, h10]
    · have hn0 : ¬n / 10 = 0 := by
        rw [Nat.div_eq_zero_iff (by omega)]
        omega
      have hbound : n / 10 < 10 ^ (k + 1) := by
        rw [Nat.div_lt_iff_lt_mul (by omega)]
        calc n < 10 ^ (k + 1 + 1) := h
        _ = 10 ^ (k + 1) * 10 := by ring
      have hunf : Nat.toDigitsCore 10 (k + 1 + 1) n ds =
          if n / 10 = 0 then Nat.digitChar (n % 10) :: ds
          else Nat.toDigitsCore 10 (k + 1) (n / 10) (Nat.digitChar (n % 10) :: ds) := rfl
      rw [hunf, if_neg hn0, ih (n / 10) (Nat.digitChar (n % 10) :: ds) hbound]
      conv_rhs => rw [toDigitsSpec]
      rw [if_neg h10]
      simp

theorem repr_data (n : Nat) : (Nat.repr n).data = toDigitsSpec n := by
  have h2 : (2 : Nat) ^ n ≤ 10 ^ n := Nat.pow_le_pow_left (by omega) n
  have h3 : (10 : Nat) ^ n ≤ 10 ^ (n + 1) := Nat.pow_le_pow_right (by omega) (by omega)
  have h : n < 10 ^ (n + 1) := lt_of_lt_of_le (Nat.lt_two_pow n) (le_trans h2 h3)
  have hrepr : Nat.repr n = (Nat.toDigitsCore 10 (n + 1) n []).asString := rfl
  rw [hrepr, toDigitsCore_spec n n [] h, List.append_nil]
  rfl

theorem parseInt10_repr (n : Nat) : parseInt10 (Nat.repr n) = n := by
  unfold parseInt10
  rw [repr_data]
  have := natOfDigitsAux_spec n 0
  simpa using this

theorem repr_all_digits (n : Nat) : (Nat.repr n).data.all Char.isDigit = true := by
  rw [repr_data, List.all_eq_true]
  exact fun ch h => toDigitsSpec_digits n ch h

theorem repr_data_ne_nil (n : Nat) : (Nat.repr n).data ≠ [] := by
  rw [repr_data]
  exact toDigitsSpec_ne_nil n

theorem repr_ne_empty (n : Nat) : Nat.repr n ≠ "" := by
  intro h
  have := repr_data_ne_nil n
  rw [h] at this
  exact this rfl

/-- The fragment parser recovers exactly the line number rendered by the
builders' `#line` fragment. -/
theorem fragmentStartLine_repr (n : Nat) : fragmentStartLine (Nat.repr n) = some n := by
  have hne : ¬(Nat.repr n).isEmpty = true := by
    intro h
    exact repr_ne_empty n ((String.isEmpty_iff (Nat.repr n)).mp h)
  have hdig := repr_all_digits n
  have hne2 : Nat.repr n ≠ "" := repr_ne_empty n
  simp [fragmentStartLine, rangeRegexExec, hne, hdig, hne2, parseInt10_repr]

theorem safe_char_props (ch : Char) (h : isUrlSafeChar ch = true) :
    ch ≠ '#' ∧ ch ≠ '\n' ∧ ch ≠ '\r' := by
  refine ⟨?_, ?_, ?_⟩ <;> rintro rfl <;> exact absurd h (by decide)

theorem hex_char_props (ch : Char)
    (h : ch.isDigit = true ∨ (97 ≤ ch.toNat ∧ ch.toNat ≤ 102)) :
    isUrlSafeChar ch = true ∧ ch ≠ '/' ∧ ch ≠ ':' := by
  have halnum : ch.isAlphanum = true := by
    rcases h with h | h
    · simp [Char.isAlphanum, h]
    · have hlow : ch.isLower = true := by
        unfold Char.isLower
        rw [Bool.and_eq_true, decide_eq_true_iff, decide_eq_true_iff]
        constructor
        · change (97 : Nat) ≤ ch.toNat
          exact h.1
        · change ch.toNat ≤ (122 : Nat)
          omega
      simp [Char.isAlphanum, Char.isAlpha, hlow]
  refine ⟨by simp [isUrlSafeChar, halnum], ?_, ?_⟩ <;> rintro rfl <;> rcases h with h | h
  · exact absurd h (by decide)
  · exact absurd h.1 (by decide)
  · exact absurd h (by decide)
  · exact absurd h.1 (by decide)

theorem isSha_facts (s : String) (h : isSha s = true) :
    s.data.length = 40 ∧ s ≠ "" ∧
    ∀ ch ∈ s.data, isUrlSafeChar ch = true ∧ ch ≠ '/' ∧ ch ≠ ':' := by
  simp only [isSha, Bool.and_eq_true, beq_iff_eq, List.all_eq_true] at h
  obtain ⟨hlen, hall⟩ := h
  have hdlen : s.data.length = 40 := hlen
  refine ⟨hdlen, ?_, ?_⟩
  · intro h0
    rw [h0] at hdlen
    exact absurd hdlen (by decide)
  · intro ch hch
    have := hall ch hch
    rw [Bool.or_eq_true, Bool.and_eq_true, decide_eq_true_iff, decide_eq_true_iff] at this
    exact hex_char_props ch this

theorem emptyString_mk : String.mk [] = "" := rfl

theorem parseUrl_no_frag (s : String) (P D tail : List Char)
    (hs : s.data = P ++ ':' :: '/' :: '/' :: (D ++ '/' :: tail))
    (hP : ∀ x ∈ P, x ≠ ':') (hD : ∀ x ∈ D, x ≠ '/') (htail : ∀ x ∈ tail, x ≠ '#') :
    parseUrl s = ⟨String.mk D, String.mk ('/' :: tail), ""⟩ := by
  have hDb : ∀ x ∈ D, (x != '/') = true := fun x hx => bne_iff_ne.mpr (hD x hx)
  have hslash : (('/' : Char) != '/') = false := by decide
  have hall : ∀ x ∈ ('/' :: tail : List Char), (x != '#') = true := by
    intro x hx
    rcases List.mem_cons.mp hx with rfl | hx2
    · decide
    · exact bne_iff_ne.mpr (htail x hx2)
  simp only [parseUrl]
  rw [hs, dropScheme_append P _ hP, takeWhile_append_cons _ D '/' tail hDb hslash,
    List.drop_left, takeWhile_all _ _ hall]
  have hdrop : (('/' :: tail : List Char)).drop (('/' :: tail : List Char)).length.succ = [] :=
    List.drop_eq_nil_of_le (by omega)
  rw [show (('/' :: tail : List Char)).length + 1 = (('/' :: tail : List Char)).length.succ from rfl,
    hdrop, emptyString_mk]

theorem parseUrl_frag (s : String) (P D tail frag : List Char)
    (hs : s.data = P ++ ':' :: '/' :: '/' :: (D ++ '/' :: (tail ++ '#' :: frag)))
    (hP : ∀ x ∈ P, x ≠ ':') (hD : ∀ x ∈ D, x ≠ '/') (htail : ∀ x ∈ tail, x ≠ '#') :
    parseUrl s = ⟨String.mk D, String.mk ('/' :: tail), String.mk frag⟩ := by
  have hDb : ∀ x ∈ D, (x != '/') = true := fun x hx => bne_iff_ne.mpr (hD x hx)
  have hslash : (('/' : Char) != '/') = false := by decide
  have hall : ∀ x ∈ ('/' :: tail : List Char), (x != '#') = true := by
    intro x hx
    rcases List.mem_cons.mp hx with rfl | hx2
    · decide
    · exact bne_iff_ne.mpr (htail x hx2)
  have hhash : (('#' : Char) != '#') = false := by decide
  have hcons : ('/' :: (tail ++ '#' :: frag) : List Char) = ('/' :: tail) ++ '#' :: frag := by
    simp
  simp only [parseUrl]
  rw [hs, dropScheme_append P _ hP]
  rw [takeWhile_append_cons _ D '/' (tail ++ '#' :: frag) hDb hslash, List.drop_left, hcons,
    takeWhile_append_cons _ ('/' :: tail) '#' frag hall hhash, drop_append_cons]

/-- Reverse resolution of a pinned permalink `/<project>/+/<seg>/<fileName>`,
where the first segment is a commit sha or the literal `HEAD`, against a
repository containing the file: the permalink interpretation succeeds and
yields the repository-local file with the fragment-extracted start line. -/
theorem resolver_ref_path (cfg : GerritCfg) (repo : Repo) (seg : List Char)
    (fileName fragStr : String) (validate : Option Bool)
    (hpath2 : ∀ ch ∈ cfg.path.data, ch ≠ '/')
    (hpathne : cfg.path ≠ "")
    (hsegok : isSha (String.mk seg) = true ∨ String.mk seg = "HEAD")
    (hsegchars : ∀ ch ∈ seg, isUrlSafeChar ch = true ∧ ch ≠ '/')
    (hfile1 : ∀ ch ∈ fileName.data, isUrlSafeChar ch = true)
    (hmem : fileName ∈ repo.files) :
    getLocalInfoFromRemoteUri cfg repo
      ⟨cfg.domain,
       String.mk ('/' :: (cfg.path.data ++ '/' :: '+' :: '/' ::
         (seg ++ '/' :: fileName.data))),
       fragStr⟩ validate =
    some ⟨repo.root ++ "/" ++ fileName, fragmentStartLine fragStr⟩ := by
  have hmkdata : ∀ l : List Char, (String.mk l).data = l := fun _ => rfl
  have hcheck : (isSha (String.mk seg) || (String.mk seg == "HEAD")) = true := by
    rcases hsegok with h | h <;> simp [h]
  have hPAb : ∀ x ∈ cfg.path.data, (x != '/') = true :=
    fun x hx => bne_iff_ne.mpr (hpath2 x hx)
  have hslash : (('/' : Char) != '/') = false := by decide
  have hPAnil : cfg.path.data ≠ [] := by
    intro h0
    apply hpathne
    rw [← stringMk_data cfg.path, h0]
  have hPAempty : cfg.path.data.isEmpty = false := by
    cases hpa : cfg.path.data with
    | nil => exact absurd hpa hPAnil
    | cons a l => rfl
  -- the starts-with check
  have h_sw : jsStartsWith
      (String.mk ('/' :: (cfg.path.data ++ '/' :: '+' :: '/' ::
        (seg ++ '/' :: fileName.data))))
      ("/" ++ cfg.path ++ "/") = true := by
    have hpredata : ("/" ++ cfg.path ++ "/" : String).data = ('/' :: cfg.path.data) ++ ['/'] := by
      simp [String.data_append]
    rw [jsStartsWith, hpredata, hmkdata, List.isPrefixOf_iff_prefix]
    have heq : ('/' :: (cfg.path.data ++ '/' :: '+' :: '/' ::
        (seg ++ '/' :: fileName.data)) : List Char) =
        (('/' :: cfg.path.data) ++ ['/']) ++
          ('+' :: '/' :: (seg ++ '/' :: fileName.data)) := by
      simp
    rw [heq]
    exact List.prefix_append _ _
  -- the file regex
  have hr2nl : ∀ x ∈ ('/' :: (seg ++ '/' :: fileName.data) : List Char),
      (x != '\n' && x != '\r') = true := by
    intro ch hch
    have hsafe : isUrlSafeChar ch = true := by
      rcases List.mem_cons.mp hch with rfl | hch2
      · decide
      · rcases List.mem_append.mp hch2 with h2 | h2
        · exact (hsegchars ch h2).1
        · rcases List.mem_cons.mp h2 with rfl | h3
          · decide
          · exact hfile1 ch h3
    obtain ⟨-, hn, hr⟩ := safe_char_props ch hsafe
    rw [Bool.and_eq_true, bne_iff_ne, bne_iff_ne]
    exact ⟨hn, hr⟩
  have h_regex : fileRegexExec
      (String.mk ('/' :: (cfg.path.data ++ '/' :: '+' :: '/' ::
        (seg ++ '/' :: fileName.data)))) =
      some (cfg.path, String.mk ('/' :: (seg ++ '/' :: fileName.data))) := by
    simp only [fileRegexExec, hmkdata]
    rw [takeWhile_append_cons _ cfg.path.data '/'
      ('+' :: '/' :: (seg ++ '/' :: fileName.data)) hPAb hslash]
    rw [List.drop_left]
    have hall : (('/' :: (seg ++ '/' :: fileName.data) : List Char)).all
        (fun ch => ch != '\n' && ch != '\r') = true :=
      List.all_eq_true.mpr hr2nl
    simp [hPAempty, hall, stringMk_data]
  have hlen : (('/' :: (seg ++ '/' :: fileName.data) : List Char)).length =
      2 + seg.length + fileName.data.length := by
    simp
    omega
  -- the permalink slash search
  have h_index : jsIndexOf ('/' :: (seg ++ '/' :: fileName.data)) '/' 1 =
      ((1 + seg.length : Nat) : Int) := by
    simp only [jsIndexOf]
    rw [if_neg (by omega)]
    rw [show ((1 : Int)).toNat = 1 from rfl, hlen, Nat.min_eq_left (by omega)]
    have hdrop : (('/' :: (seg ++ '/' :: fileName.data) : List Char)).drop 1 =
        seg ++ '/' :: fileName.data := rfl
    rw [hdrop, jsIndexOfAux_append '/' seg fileName.data
      (fun x hx => (hsegchars x hx).2) 1]
  have htn2 : (((1 + seg.length : Nat) : Int)).toNat = 1 + seg.length := Int.toNat_natCast _
  -- the ref substring
  have h_sub : jsSubstring (String.mk ('/' :: (seg ++ '/' :: fileName.data))) 1
      ((1 + seg.length : Nat) : Int) = String.mk seg := by
    simp only [jsSubstring, jsSubstringL, hmkdata]
    rw [show ((1 : Int)).toNat = 1 from rfl, htn2, hlen,
      Nat.min_eq_left (by omega), Nat.min_eq_left (by omega)]
    rw [Nat.min_eq_left (by omega), Nat.max_eq_right (by omega)]
    have hdrop : (('/' :: (seg ++ '/' :: fileName.data) : List Char)).drop 1 =
        seg ++ '/' :: fileName.data := rfl
    rw [hdrop, show 1 + seg.length - 1 = seg.length from by omega, List.take_left]
  -- the file suffix
  have h_substr : jsSubstr (String.mk ('/' :: (seg ++ '/' :: fileName.data)))
      ((1 + seg.length : Nat) : Int) = String.mk ('/' :: fileName.data) := by
    simp only [jsSubstr, jsSubstrL, hmkdata]
    rw [if_neg (by omega), htn2]
    have hsplit : ('/' :: (seg ++ '/' :: fileName.data) : List Char) =
        ('/' :: seg) ++ ('/' :: fileName.data) := by
      simp
    rw [hsplit, show 1 + seg.length = (('/' :: seg : List Char)).length from by
      rw [List.length_cons]; omega, List.drop_left]
  -- the repository service resolves the suffix
  have h_abs : repo.toAbsoluteUri (String.mk ('/' :: fileName.data)) validate =
      some (repo.root ++ "/" ++ fileName) := by
    have hsw2 : jsStartsWith (String.mk ('/' :: fileName.data)) "/" = true := by
      rw [jsStartsWith, hmkdata]
      simp [List.isPrefixOf]
    have hcont : repo.files.contains fileName = true := List.elem_eq_true_of_mem hmem
    have hdrop : (('/' :: fileName.data : List Char)).drop 1 = fileName.data := rfl
    cases hv : validate.getD true <;>
      simp [Repo.toAbsoluteUri, hv, hsw2, hmkdata, hdrop, stringMk_data, hcont, hmem]
  -- assemble
  have hneg : ((((1 + seg.length : Nat) : Int)) != -1) = true := bne_iff_ne.mpr (by omega)
  simp only [getLocalInfoFromRemoteUri, hmkdata, bne_self_eq_false, Bool.false_eq_true,
    if_false, h_sw, Bool.not_true, Bool.and_false, h_regex, h_index, hneg, if_true, h_sub,
    hcheck, h_substr, h_abs]

/-- Round trip of a plain (escape-free) pinned-file URL: if the URL string
equals `<browseBase>/+/<seg>/<fileName>` plus the optional `#line` fragment,
with `<seg>` a sha or `HEAD`, then parsing it back and reverse-resolving it
against a repository containing the file recovers the original file and line. -/
theorem roundtrip_parse_resolve (cfg : GerritCfg) (repo : Repo) (seg : List Char)
    (fileName : String) (range : Option JsRange) (validate : Option Bool) (url : String)
    (hurl : url = (baseUrl cfg ++ "/+/" ++ String.mk seg ++ "/" ++ fileName) ++
      (match range with | some r => "#" ++ Nat.repr r.start.line | none => ""))
    (hprot2 : ∀ ch ∈ cfg.protocol.data, ch ≠ ':')
    (hdom2 : ∀ ch ∈ cfg.domain.data, ch ≠ '/')
    (hpath1 : ∀ ch ∈ cfg.path.data, isUrlSafeChar ch = true)
    (hpath2 : ∀ ch ∈ cfg.path.data, ch ≠ '/')
    (hpathne : cfg.path ≠ "")
    (hsegok : isSha (String.mk seg) = true ∨ String.mk seg = "HEAD")
    (hsegchars : ∀ ch ∈ seg, isUrlSafeChar ch = true ∧ ch ≠ '/')
    (hfile1 : ∀ ch ∈ fileName.data, isUrlSafeChar ch = true)
    (hmem : fileName ∈ repo.files) :
    getLocalInfoFromRemoteUri cfg repo (parseUrl url) validate =
      some ⟨repo.root ++ "/" ++ fileName, Option.map (fun r => r.start.line) range⟩ := by
  have htailsafe : ∀ x ∈ (cfg.path.data ++ '/' :: '+' :: '/' ::
      (seg ++ '/' :: fileName.data) : List Char), x ≠ '#' := by
    intro x hx
    have hsafe : isUrlSafeChar x = true := by
      rcases List.mem_append.mp hx with h | h
      · exact hpath1 x h
      · rcases List.mem_cons.mp h with rfl | h
        · decide
        · rcases List.mem_cons.mp h with rfl | h
          · decide
          · rcases List.mem_cons.mp h with rfl | h
            · decide
            · rcases List.mem_append.mp h with h2 | h2
              · exact (hsegchars x h2).1
              · rcases List.mem_cons.mp h2 with rfl | h3
                · decide
                · exact hfile1 x h3
    exact (safe_char_props x hsafe).1
  rcases range with _ | r
  · have hsdata : url.data =
        cfg.protocol.data ++ ':' :: '/' :: '/' ::
          (cfg.domain.data ++ '/' :: (cfg.path.data ++ '/' :: '+' :: '/' ::
            (seg ++ '/' :: fileName.data))) := by
      rw [hurl]
      simp [baseUrl, String.data_append]
    have hparse := parseUrl_no_frag url cfg.protocol.data cfg.domain.data
      (cfg.path.data ++ '/' :: '+' :: '/' :: (seg ++ '/' :: fileName.data))
      hsdata hprot2 hdom2 htailsafe
    rw [hparse, stringMk_data]
    rw [resolver_ref_path cfg repo seg fileName "" validate hpath2 hpathne hsegok
      hsegchars hfile1 hmem]
    rfl
  · have hsdata : url.data =
        cfg.protocol.data ++ ':' :: '/' :: '/' ::
          (cfg.domain.data ++ '/' :: ((cfg.path.data ++ '/' :: '+' :: '/' ::
            (seg ++ '/' :: fileName.data)) ++ '#' :: (Nat.repr r.start.line).data)) := by
      rw [hurl]
      simp [baseUrl, String.data_append]
    have hparse := parseUrl_frag url cfg.protocol.data cfg.domain.data
      (cfg.path.data ++ '/' :: '+' :: '/' :: (seg ++ '/' :: fileName.data))
      ((Nat.repr r.start.line).data)
      hsdata hprot2 hdom2 htailsafe
    rw [hparse, stringMk_data, stringMk_data]
    rw [resolver_ref_path cfg repo seg fileName (Nat.repr r.start.line) validate hpath2
      hpathne hsegok hsegchars hfile1 hmem]
    rw [fragmentStartLine_repr]
    rfl

/-- C2 (amended): every URL produced by the file builder with a commit sha —
and likewise every URL the file builder produces with neither a (truthy) sha
nor a (truthy) branch, i.e. the `HEAD` form — reverse-resolves, through
`parseUrl` and `getLocalInfoFromRemoteUri`, to the original file (under the
repository root) and the original 0-based line, against any repository whose
file list contains the file: for every configuration, branch argument, range
and validation mode (characters are assumed to need no percent-escaping;
domains and project paths are slash-free and protocols colon-free, as in any
well-formed provider configuration). The round trip as originally claimed
fails for the remaining builders at the counterexample's inputs (commit URL on
the review sub-domain; branch URL and branch-qualified file URL for branch
`master`). -/
theorem c2_roundtrip_pinned_file :
    ∀ (cfg : GerritCfg) (repo : Repo) (fileName : String)
      (range : Option JsRange) (validate : Option Bool),
    (∀ ch ∈ cfg.protocol.data, isUrlSafeChar ch = true) →
    (∀ ch ∈ cfg.protocol.data, ch ≠ ':') →
    (∀ ch ∈ cfg.domain.data, isUrlSafeChar ch = true) →
    (∀ ch ∈ cfg.domain.data, ch ≠ '/') →
    (∀ ch ∈ cfg.path.data, isUrlSafeChar ch = true) →
    (∀ ch ∈ cfg.path.data, ch ≠ '/') →
    cfg.path ≠ "" →
    (∀ ch ∈ fileName.data, isUrlSafeChar ch = true) →
    fileName ∈ repo.files →
    (∀ (sha : String) (branch : Option String), isSha sha = true →
      getLocalInfoFromRemoteUri cfg repo
          (parseUrl (getUrlForFile cfg fileName branch (some sha) range)) validate =
        some ⟨repo.root ++ "/" ++ fileName, Option.map (fun r => r.start.line) range⟩) ∧
    (∀ (sha branch : Option String), strTruthy sha = false → strTruthy branch = false →
      getLocalInfoFromRemoteUri cfg repo
          (parseUrl (getUrlForFile cfg fileName branch sha range)) validate =
        some ⟨repo.root ++ "/" ++ fileName, Option.map (fun r => r.start.line) range⟩) := by
  intro cfg repo fileName range validate hprot1 hprot2 hdom1 hdom2 hpath1 hpath2
    hpathne hfile1 hmem
  have hlit : ∀ (s : String), s = "://" ∨ s = "/" ∨ s = "/+/" ∨ s = "/+/HEAD/" →
      ∀ ch ∈ s.data, isUrlSafeChar ch = true := by
    rintro s (rfl | rfl | rfl | rfl) <;> decide
  have hb : ∀ ch ∈ (baseUrl cfg).data, isUrlSafeChar ch = true :=
    safe_append (safe_append (safe_append (safe_append hprot1
      (hlit "://" (by tauto))) hdom1) (hlit "/" (by tauto))) hpath1
  constructor
  · intro sha branch hsha
    obtain ⟨hslen, hsne, hschars⟩ := isSha_facts sha hsha
    have hst : strTruthy (some sha) = true := by simp [strTruthy, hsne]
    have hsafeall : ∀ ch ∈ (baseUrl cfg ++ "/+/" ++ (some sha).getD "" ++ "/" ++
        fileName).data, isUrlSafeChar ch = true :=
      safe_append (safe_append (safe_append (safe_append hb (hlit "/+/" (by tauto)))
        (fun ch h => (hschars ch h).1)) (hlit "/" (by tauto))) hfile1
    have hurl : getUrlForFile cfg fileName branch (some sha) range =
        (baseUrl cfg ++ "/+/" ++ sha ++ "/" ++ fileName) ++
          (match range with | some r => "#" ++ Nat.repr r.start.line | none => "") := by
      simp only [getUrlForFile, hst, if_true, Option.getD_some] at hsafeall ⊢
      rw [encodeUrl_safe _ hsafeall]
    exact roundtrip_parse_resolve cfg repo sha.data fileName range validate _
      (by rw [stringMk_data]; exact hurl) hprot2 hdom2 hpath1 hpath2 hpathne
      (Or.inl (by rw [stringMk_data]; exact hsha))
      (fun ch h => ⟨(hschars ch h).1, (hschars ch h).2.1⟩) hfile1 hmem
  · intro sha branch hs2 hb2
    have hsafeall : ∀ ch ∈ (baseUrl cfg ++ "/+/HEAD/" ++ fileName).data,
        isUrlSafeChar ch = true :=
      safe_append (safe_append hb (hlit "/+/HEAD/" (by tauto))) hfile1
    have hurl : getUrlForFile cfg fileName branch sha range =
        (baseUrl cfg ++ "/+/HEAD/" ++ fileName) ++
          (match range with | some r => "#" ++ Nat.repr r.start.line | none => "") := by
      simp only [getUrlForFile, hs2, hb2, Bool.false_eq_true, if_false]
      rw [encodeUrl_safe _ hsafeall]
    have hhead : (baseUrl cfg ++ "/+/HEAD/" ++ fileName) =
        baseUrl cfg ++ "/+/" ++ String.mk ['H', 'E', 'A', 'D'] ++ "/" ++ fileName := by
      apply stringEqOfData
      simp [String.data_append]
    exact roundtrip_parse_resolve cfg repo ['H', 'E', 'A', 'D'] fileName range validate _
      (by rw [← hhead]; exact hurl) hprot2 hdom2 hpath1 hpath2 hpathne
      (Or.inr (by decide)) (by decide) hfile1 hmem

/-- C2 (witness): two concrete round trips — domain `foo.example.com`, project
`proj`, file `dir/file.txt`: first pinned to a 40-hex sha with line 41, then
the `HEAD` form with no sha and no branch and no line. -/
theorem c2_roundtrip_pinned_file_witness :
    (getLocalInfoFromRemoteUri ⟨"foo.example.com", "proj", "https"⟩
        ⟨"/repo", ["dir/file.txt"], ["master"], []⟩
        (parseUrl (getUrlForFile ⟨"foo.example.com", "proj", "https"⟩ "dir/file.txt"
          (some "master") (some "aaaaaaaaaaaaaaaaaaaaaaaaaaaaaaaaaaaaaaaa")
          (some ⟨⟨41⟩⟩))) none =
      some ⟨"/repo" ++ "/" ++ "dir/file.txt",
        Option.map (fun r => r.start.line) (some (⟨⟨41⟩⟩ : JsRange))⟩) ∧
    (getLocalInfoFromRemoteUri ⟨"foo.example.com", "proj", "https"⟩
        ⟨"/repo", ["dir/file.txt"], ["master"], []⟩
        (parseUrl (getUrlForFile ⟨"foo.example.com", "proj", "https"⟩ "dir/file.txt"
          none none none)) none =
      some ⟨"/repo" ++ "/" ++ "dir/file.txt",
        Option.map (fun r => r.start.line) (none : Option JsRange)⟩) := by
  constructor
  · exact (c2_roundtrip_pinned_file ⟨"foo.example.com", "proj", "https"⟩
      ⟨"/repo", ["dir/file.txt"], ["master"], []⟩ "dir/file.txt"
      (some ⟨⟨41⟩⟩) none (by decide) (by decide) (by decide) (by decide) (by decide)
      (by decide) (by decide) (by decide) (by decide)).1
      "aaaaaaaaaaaaaaaaaaaaaaaaaaaaaaaaaaaaaaaa" (some "master") (by decide)
  · exact (c2_roundtrip_pinned_file ⟨"foo.example.com", "proj", "https"⟩
      ⟨"/repo", ["dir/file.txt"], ["master"], []⟩ "dir/file.txt"
      none none (by decide) (by decide) (by decide) (by decide) (by decide)
      (by decide) (by decide) (by decide) (by decide)).2
      none none (by decide) (by decide)

end Gitlens
